import Mathlib

/-!
# Verification of the labrador baseline evaluation scripts

Shallow embedding of the nested cross-validation protocol implemented by
`src/scripts/evaluations/cancer_diagnosis_logistic_regression_baseline.py` and
`src/scripts/evaluations/sepsis_mortality_random_forest_baseline.py`, together
with proofs of the specification claims about it.

Numeric values that the scripts keep as IEEE floats are modelled as rationals;
the square root taken inside `sklearn.preprocessing.StandardScaler` (an external
library call) is abstracted as a parameter `sqrtFn`.
-/

namespace Labrador

/-! ## Inner model-selection loop (best_lr_hps / best_rf_hps)

The scripts keep a pair `(best_ce, best_hps)`, initially `None`, and for each
configuration in enumeration order update it when
`best_ce is None or np.mean(crossentropies) < best_ce`. -/

/-- One pass of the selection loop over the remaining configurations, carrying
the accumulator `(best_ce, best_hps)` exactly as the scripts do. -/
def selectBestAux {α : Type} (score : α → ℚ) : List α → Option (ℚ × α) → Option (ℚ × α)
  | [], acc => acc
  | c :: rest, none => selectBestAux score rest (some (score c, c))
  | c :: rest, some (b, bc) =>
      if score c < b then selectBestAux score rest (some (score c, c))
      else selectBestAux score rest (some (b, bc))

/-- The configuration returned by the selection loop (`best_lr_hps` resp.
`best_rf_hps` after the `for … in gen_combinations(…)` loop). -/
def selectBest {α : Type} (score : α → ℚ) (configs : List α) : Option α :=
  (selectBestAux score configs none).map Prod.snd

/-- The mean (`np.mean`) of the per-fold cross-entropies: sum over the `k` folds divided
by `k` (the list `crossentropies` has one entry per fold). -/
def meanCE {α : Type} (foldCE : α → ℕ → ℚ) (k : ℕ) (c : α) : ℚ :=
  (((List.range k).map (foldCE c)).sum) / k

/-- The inner model-selection loop: scan the configurations in the combination
generator's order, scoring each by its mean held-out cross-entropy. -/
def innerSelect {α : Type} (foldCE : α → ℕ → ℚ) (k : ℕ) (configs : List α) : Option α :=
  selectBest (meanCE foldCE k) configs

theorem selectBestAux_eq_argAux {α : Type} (score : α → ℚ) :
    ∀ (l : List α) (bc : α),
      (selectBestAux score l (some (score bc, bc))).map Prod.snd =
        l.foldl (List.argAux fun x y => score x < score y) (some bc) := by
  intro l
  induction l with
  | nil => intro bc; rfl
  | cons c rest ih =>
      intro bc
      by_cases h : score c < score bc
      · simp [selectBestAux, List.argAux, h, ih]
      · simp [selectBestAux, List.argAux, h, ih]

theorem selectBest_eq_argmin {α : Type} (score : α → ℚ) (configs : List α) :
    selectBest score configs = List.argmin score configs := by
  cases configs with
  | nil => rfl
  | cons c rest =>
      show (selectBestAux score rest (some (score c, c))).map Prod.snd = _
      rw [selectBestAux_eq_argAux]
      rfl

theorem selectBest_eq_none {α : Type} (score : α → ℚ) (configs : List α) :
    selectBest score configs = none ↔ configs = [] := by
  rw [selectBest_eq_argmin]
  exact List.argmin_eq_none

/-- C1: for every inner fold count `k ≥ 2`, every per-fold cross-entropy
table and every nonempty configuration enumeration, the inner model-selection
loop returns a configuration whose mean held-out cross-entropy over the `k`
folds is minimal, and among the minimizers it is the one appearing first in
the combination generator's enumeration order. -/
theorem innerSelect_returns_first_minimizer {α : Type} [DecidableEq α]
    (foldCE : α → ℕ → ℚ) (k : ℕ) (configs : List α)
    (hk : 2 ≤ k) (hne : configs ≠ []) :
    ∃ c, innerSelect foldCE k configs = some c ∧ c ∈ configs ∧
      (∀ d ∈ configs, meanCE foldCE k c ≤ meanCE foldCE k d) ∧
      (∀ d ∈ configs, meanCE foldCE k d ≤ meanCE foldCE k c →
        List.indexOf c configs ≤ List.indexOf d configs) := by
  have h : innerSelect foldCE k configs = List.argmin (meanCE foldCE k) configs :=
    selectBest_eq_argmin _ _
  cases harg : List.argmin (meanCE foldCE k) configs with
  | none =>
      exact absurd (List.argmin_eq_none.mp harg) hne
  | some m =>
      refine ⟨m, by rw [h, harg], ?_⟩
      have := List.argmin_eq_some_iff.mp harg
      exact ⟨this.1, this.2.1, fun d hd hle => this.2.2 d hd hle⟩

/-- A concrete per-fold cross-entropy table used to witness the selection
theorem: configurations `1` and `2` tie at the minimal mean. -/
def wFoldCE : ℕ → ℕ → ℚ
  | 0, _ => 5
  | 1, _ => 3
  | 2, _ => 3
  | _, _ => 7

theorem innerSelect_returns_first_minimizer_witness :
    ∃ c, innerSelect wFoldCE 2 [0, 1, 2] = some c ∧ c ∈ [0, 1, 2] ∧
      (∀ d ∈ [0, 1, 2], meanCE wFoldCE 2 c ≤ meanCE wFoldCE 2 d) ∧
      (∀ d ∈ [0, 1, 2], meanCE wFoldCE 2 d ≤ meanCE wFoldCE 2 c →
        List.indexOf c [0, 1, 2] ≤ List.indexOf d [0, 1, 2]) :=
  innerSelect_returns_first_minimizer wFoldCE 2 [0, 1, 2] (by decide) (by decide)

/-! ## Outer split: test holdout and development pool

Per repetition the scripts draw `test_ix = rng.choice(N, size=int(0.1*N),
replace=False)`, then build `mask = np.ones(N, dtype=bool); mask[test_ix] =
False` and keep the rows with `mask` true as the development pool. -/

/-- The development-pool index list induced by the boolean mask: every row
index below `N` that is not a test index, in increasing order. -/
def devPool (N : ℕ) (testIx : List ℕ) : List ℕ :=
  (List.range N).filter (fun i => decide (i ∉ testIx))

theorem devPool_nodup (N : ℕ) (testIx : List ℕ) : (devPool N testIx).Nodup :=
  (List.nodup_range N).filter _

theorem mem_devPool {N : ℕ} {testIx : List ℕ} {i : ℕ} :
    i ∈ devPool N testIx ↔ i < N ∧ i ∉ testIx := by
  simp [devPool, List.mem_filter]

/-- C3: for every repetition, the test-holdout index set (of size
`⌊0.1 * N⌋`, drawn without replacement, hence `Nodup` and within range) and
the development-pool index set are disjoint, and together they are a
permutation of the full row-index range `{0, …, N-1}` (so their union is the
full range); consequently the development pool has `N - N / 10` rows. -/
theorem testIx_devPool_partition (N : ℕ) (testIx : List ℕ)
    (hsub : ∀ i ∈ testIx, i < N) (hnd : testIx.Nodup)
    (hlen : testIx.length = N / 10) :
    List.Disjoint testIx (devPool N testIx) ∧
    (testIx ++ devPool N testIx).Perm (List.range N) ∧
    (devPool N testIx).length = N - N / 10 := by
  have hdisj : List.Disjoint testIx (devPool N testIx) := by
    intro i hi hdev
    exact (mem_devPool.mp hdev).2 hi
  have happnd : (testIx ++ devPool N testIx).Nodup :=
    hnd.append (devPool_nodup N testIx) hdisj
  have hperm : (testIx ++ devPool N testIx).Perm (List.range N) := by
    rw [List.perm_ext_iff_of_nodup happnd (List.nodup_range N)]
    intro a
    constructor
    · intro ha
      rcases List.mem_append.mp ha with h | h
      · exact List.mem_range.mpr (hsub a h)
      · exact List.mem_range.mpr (mem_devPool.mp h).1
    · intro ha
      by_cases h : a ∈ testIx
      · exact List.mem_append.mpr (Or.inl h)
      · exact List.mem_append.mpr
          (Or.inr (mem_devPool.mpr ⟨List.mem_range.mp ha, h⟩))
  refine ⟨hdisj, hperm, ?_⟩
  have := hperm.length_eq
  simp only [List.length_append, List.length_range, hlen] at this
  omega

theorem testIx_devPool_partition_witness :
    List.Disjoint [3, 0] (devPool 20 [3, 0]) ∧
    (([3, 0] ++ devPool 20 [3, 0]).Perm (List.range 20)) ∧
    (devPool 20 [3, 0]).length = 20 - 20 / 10 :=
  testIx_devPool_partition 20 [3, 0] (by decide) (by decide) (by decide)

/-! ## Learning-curve fractions and subsample sizes

`for fraction in np.arange(1, num_subsamples + 1) / num_subsamples`, then
`train_ix = rng.choice(D, size=int(fraction * D), replace=False)` where `D`
is the development-pool row count. -/

/-- The swept subsample fractions `[1/n, 2/n, …, n/n]`. -/
def fractions (n : ℕ) : List ℚ :=
  (List.range n).map (fun (i : ℕ) => ((i : ℚ) + 1) / (n : ℚ))

/-- The training-subsample row count `int(fraction * D)` requested from
`rng.choice` (the fraction is nonnegative, so truncation is the floor). -/
def subsampleSize (f : ℚ) (D : ℕ) : ℕ :=
  ⌊f * D⌋₊

theorem fractions_pairwise (n : ℕ) : List.Pairwise (· < ·) (fractions n) := by
  cases n with
  | zero => simp [fractions]
  | succ m =>
      have hn0 : (0 : ℚ) < (m + 1 : ℕ) := by positivity
      exact List.Pairwise.map _
        (fun a b hab => by
          exact (div_lt_div_iff_of_pos_right hn0).mpr
            (by exact_mod_cast Nat.add_lt_add_right hab 1))
        (List.pairwise_lt_range (m + 1))

/-- C5: for every `n ≥ 1`, each repetition sweeps exactly the fractions
`i/n` for `i = 1, …, n` in strictly increasing order; `n = 1` yields the
single fraction `1`; the fraction `i/n` requests exactly `⌊(i·D)/n⌋` rows
from a development pool of `D` rows, and fraction `1` requests all `D`. -/
theorem fractions_sweep (n : ℕ) (hn : 1 ≤ n) :
    (fractions n).length = n ∧
    (∀ i, i < n → (fractions n).getD i 0 = ((i : ℚ) + 1) / n) ∧
    List.Pairwise (· < ·) (fractions n) ∧
    fractions 1 = [1] ∧
    (∀ i D, i < n → subsampleSize (((i : ℚ) + 1) / n) D = (i + 1) * D / n) ∧
    (∀ D, subsampleSize 1 D = D) := by
  have hn0 : (0 : ℚ) < n := by exact_mod_cast Nat.lt_of_lt_of_le Nat.zero_lt_one hn
  refine ⟨by rw [fractions, List.length_map, List.length_range], ?_, ?_, ?_, ?_, ?_⟩
  · intro i hi
    rw [fractions, List.getD_eq_getElem?_getD, List.getElem?_map, List.getElem?_range hi]
    rfl
  · exact fractions_pairwise n
  · rw [fractions]
    norm_num [List.range_succ]
  · intro i D _
    have : (((i : ℚ) + 1) / n) * D = (((i + 1) * D : ℕ) : ℚ) / n := by
      push_cast
      ring
    rw [subsampleSize, this, Nat.floor_div_nat, Nat.floor_natCast]
  · intro D
    simp [subsampleSize]

theorem fractions_sweep_witness :
    (fractions 4).length = 4 ∧
    (∀ i : ℕ, i < 4 → (fractions 4).getD i 0 = ((i : ℚ) + 1) / ((4 : ℕ) : ℚ)) ∧
    List.Pairwise (· < ·) (fractions 4) ∧
    fractions 1 = [1] ∧
    (∀ i D : ℕ, i < 4 →
      subsampleSize (((i : ℚ) + 1) / ((4 : ℕ) : ℚ)) D = (i + 1) * D / 4) ∧
    (∀ D : ℕ, subsampleSize 1 D = D) :=
  fractions_sweep 4 (by decide)

/-! ## Inner k-fold partition

`KFold(n_splits=k_inner, shuffle=True, random_state=random_seed)` shuffles
the row order once (a seeded permutation of `range R`, external to this
model) and splits it into `k` contiguous blocks: the first `R % k` blocks
have `R / k + 1` rows, the rest `R / k`. -/

/-- The block sizes used by `KFold`: `fold_sizes = full(k, R // k);
fold_sizes[: R % k] += 1`. -/
def foldSizes (k R : ℕ) : List ℕ :=
  (List.range k).map (fun i => if i < R % k then R / k + 1 else R / k)

/-- Cut the shuffled index list into contiguous blocks of the given sizes. -/
def splitBlocks : List ℕ → List ℕ → List (List ℕ)
  | [], _ => []
  | s :: ss, rest => rest.take s :: splitBlocks ss (rest.drop s)

/-- The `k` validation folds produced by `KFold` from the shuffled index
list `perm`. -/
def kfolds (k R : ℕ) (perm : List ℕ) : List (List ℕ) :=
  splitBlocks (foldSizes k R) perm

theorem sum_ite_range_ge (q : ℕ) :
    ∀ k m : ℕ, k ≤ m →
      (((List.range k).map (fun i => if i < m then q + 1 else q)).sum) = k * (q + 1) := by
  intro k
  induction k with
  | zero => intro m _; simp
  | succ k ih =>
      intro m hm
      rw [List.sum_range_succ, ih m (Nat.le_of_succ_le hm), if_pos (show k < m from hm)]
      ring

theorem sum_ite_range_le (q : ℕ) :
    ∀ k m : ℕ, m ≤ k →
      (((List.range k).map (fun i => if i < m then q + 1 else q)).sum) = k * q + m := by
  intro k
  induction k with
  | zero => intro m hm; simp_all
  | succ k ih =>
      intro m hm
      rcases Nat.lt_or_ge k m with h | h
      · have hmk : m = k + 1 := Nat.le_antisymm hm h
        subst hmk
        rw [List.sum_range_succ, sum_ite_range_ge q k (k + 1) (Nat.le_succ k),
          if_pos (Nat.lt_succ_self k)]
        ring
      · rw [List.sum_range_succ, ih m h, if_neg (Nat.not_lt.mpr h)]
        ring

theorem foldSizes_sum (k R : ℕ) (hk : 0 < k) : (foldSizes k R).sum = R := by
  rw [foldSizes, sum_ite_range_le (R / k) k (R % k) (Nat.le_of_lt (Nat.mod_lt R hk))]
  have := Nat.div_add_mod R k
  omega

theorem foldSizes_length (k R : ℕ) : (foldSizes k R).length = k := by
  rw [foldSizes, List.length_map, List.length_range]

theorem foldSizes_mem (k R : ℕ) :
    ∀ s ∈ foldSizes k R, s = R / k ∨ s = R / k + 1 := by
  intro s hs
  rcases List.mem_map.mp hs with ⟨i, _, hi⟩
  by_cases h : i < R % k
  · right; rw [← hi, if_pos h]
  · left; rw [← hi, if_neg h]

theorem splitBlocks_flatten :
    ∀ (ss : List ℕ) (rest : List ℕ), (splitBlocks ss rest).flatten = rest.take ss.sum := by
  intro ss
  induction ss with
  | nil => intro rest; simp [splitBlocks]
  | cons s ss ih =>
      intro rest
      rw [splitBlocks, List.flatten_cons, ih, List.sum_cons, List.take_add]

theorem splitBlocks_length :
    ∀ (ss : List ℕ) (rest : List ℕ), (splitBlocks ss rest).length = ss.length := by
  intro ss
  induction ss with
  | nil => intro rest; rfl
  | cons s ss ih => intro rest; rw [splitBlocks, List.length_cons, ih, List.length_cons]

theorem splitBlocks_sizes :
    ∀ (ss : List ℕ) (rest : List ℕ), ss.sum ≤ rest.length →
      (splitBlocks ss rest).map List.length = ss := by
  intro ss
  induction ss with
  | nil => intro rest _; rfl
  | cons s ss ih =>
      intro rest h
      rw [List.sum_cons] at h
      rw [splitBlocks, List.map_cons, List.length_take,
        ih (rest.drop s) (by rw [List.length_drop]; omega),
        Nat.min_eq_left (show s ≤ rest.length by omega)]

/-- C4: for `k ≥ 2` and `R ≥ k` rows, the `k` folds cut from any shuffled
ordering `perm` of `{0, …, R-1}` are mutually disjoint, their union (their
concatenation) is a permutation of the full index range, and the fold sizes
are all `R / k` or `R / k + 1`, hence differ pairwise by at most one row. -/
theorem kfolds_partition (k R : ℕ) (perm : List ℕ)
    (hk : 2 ≤ k) (hkR : k ≤ R) (hperm : perm.Perm (List.range R)) :
    (kfolds k R perm).length = k ∧
    List.Pairwise List.Disjoint (kfolds k R perm) ∧
    (kfolds k R perm).flatten.Perm (List.range R) ∧
    (∀ f ∈ kfolds k R perm, f.length = R / k ∨ f.length = R / k + 1) ∧
    (∀ f₁ ∈ kfolds k R perm, ∀ f₂ ∈ kfolds k R perm, f₁.length ≤ f₂.length + 1) := by
  have hk0 : 0 < k := Nat.lt_of_lt_of_le Nat.zero_lt_two hk
  have hlen : perm.length = R := by rw [hperm.length_eq, List.length_range]
  have hflat : (kfolds k R perm).flatten = perm := by
    rw [kfolds, splitBlocks_flatten, foldSizes_sum k R hk0, ← hlen, List.take_length]
  have hsizes : (kfolds k R perm).map List.length = foldSizes k R := by
    rw [kfolds]
    exact splitBlocks_sizes _ _ (by rw [foldSizes_sum k R hk0, hlen])
  have hmemlen : ∀ f ∈ kfolds k R perm, f.length = R / k ∨ f.length = R / k + 1 := by
    intro f hf
    exact foldSizes_mem k R f.length (hsizes ▸ List.mem_map_of_mem List.length hf)
  refine ⟨?_, ?_, ?_, hmemlen, ?_⟩
  · rw [kfolds, splitBlocks_length, foldSizes_length]
  · have hnd : (kfolds k R perm).flatten.Nodup := by
      rw [hflat]
      exact hperm.nodup_iff.mpr (List.nodup_range R)
    exact (List.nodup_flatten.mp hnd).2
  · rw [hflat]; exact hperm
  · intro f₁ hf₁ f₂ hf₂
    rcases hmemlen f₁ hf₁ with h₁ | h₁ <;> rcases hmemlen f₂ hf₂ with h₂ | h₂ <;> omega

theorem kfolds_partition_witness :
    (kfolds 2 5 [4, 2, 0, 1, 3]).length = 2 ∧
    List.Pairwise List.Disjoint (kfolds 2 5 [4, 2, 0, 1, 3]) ∧
    (kfolds 2 5 [4, 2, 0, 1, 3]).flatten.Perm (List.range 5) ∧
    (∀ f ∈ kfolds 2 5 [4, 2, 0, 1, 3], f.length = 5 / 2 ∨ f.length = 5 / 2 + 1) ∧
    (∀ f₁ ∈ kfolds 2 5 [4, 2, 0, 1, 3], ∀ f₂ ∈ kfolds 2 5 [4, 2, 0, 1, 3],
      f₁.length ≤ f₂.length + 1) :=
  kfolds_partition 2 5 [4, 2, 0, 1, 3] (by decide) (by decide) (by decide)

/-! ## Leakage-safe standardization

`preprocessing.StandardScaler().fit(P)` stores a per-column mean and scale
(the scale is the square root of the per-column variance, an external
floating-point operation abstracted as `sqrtFn`); `transform` maps each
value `x` of a designated column to `(x - mean) / scale`.  The scripts fit
on the training rows' continuous columns and apply the resulting transform
to training, validation and test rows. -/

/-- A data row: feature values by column position, modelled as rationals. -/
abbrev Row : Type := List ℚ

/-- NumPy integer-array indexing `X[ix]`: the rows of `X` at the positions
listed in `ix` (a fresh list, in `ix` order). -/
def select (ix : List ℕ) (X : List Row) : List Row :=
  ix.filterMap (fun i => X[i]?)

/-- The values of column `j` down a partition. -/
def colVals (P : List Row) (j : ℕ) : List ℚ :=
  P.filterMap (fun r => r[j]?)

/-- Per-column mean over a partition. -/
def colMean (P : List Row) (j : ℕ) : ℚ :=
  (colVals P j).sum / (colVals P j).length

/-- Per-column (population) variance over a partition. -/
def colVar (P : List Row) (j : ℕ) : ℚ :=
  ((colVals P j).map (fun x => (x - colMean P j) ^ 2)).sum / (colVals P j).length

/-- The fitted standardization: a mean and a scale per column. -/
structure ScalingTransform where
  mean : ℕ → ℚ
  scale : ℕ → ℚ

/-- The fit of `StandardScaler().fit(P)`: per-column mean, and scale `√variance`
(square root abstracted as `sqrtFn`). -/
def fitScaler (sqrtFn : ℚ → ℚ) (P : List Row) : ScalingTransform :=
  ⟨fun j => colMean P j, fun j => sqrtFn (colVar P j)⟩

/-- Apply the transform to the columns listed in `C`, leaving the other
columns of each row unchanged (`X[:, C] = scaler.transform(X[:, C])`). -/
def transformCols (t : ScalingTransform) (C : List ℕ) (P : List Row) : List Row :=
  P.map (fun r => r.mapIdx (fun j x => if j ∈ C then (x - t.mean j) / t.scale j else x))

/-- Entry `(i, j)` of a partition (defaulting to `0` out of bounds). -/
def entry (X : List Row) (i j : ℕ) : ℚ :=
  (X.getD i ([] : List ℚ)).getD j 0

theorem length_transformCols (t : ScalingTransform) (C : List ℕ) (P : List Row) :
    (transformCols t C P).length = P.length := by
  rw [transformCols, List.length_map]

/-- C8: applying the transform fit on a partition `P` to any partition `Q`
replaces exactly the columns in `C` by `(x - mean) / scale` with the mean
and scale fit on `P`, and leaves every entry of a column outside `C` equal
to its value in `Q`; the row and column layout is preserved. -/
theorem transformCols_frame (sqrtFn : ℚ → ℚ) (P Q : List Row) (C : List ℕ) (i j : ℕ)
    (hi : i < Q.length) (hj : j < (Q.getD i ([] : List ℚ)).length) :
    (transformCols (fitScaler sqrtFn P) C Q).length = Q.length ∧
    entry (transformCols (fitScaler sqrtFn P) C Q) i j =
      (if j ∈ C then (entry Q i j - colMean P j) / sqrtFn (colVar P j)
       else entry Q i j) := by
  refine ⟨length_transformCols _ _ _, ?_⟩
  have hQi : Q[i]? = some (Q.getD i ([] : List ℚ)) := by
    rw [List.getElem?_eq_getElem hi]
    exact congrArg some (List.getD_eq_getElem Q ([] : List ℚ) hi).symm
  have hrow : (Q.getD i ([] : List ℚ))[j]? = some (entry Q i j) := by
    rw [List.getElem?_eq_getElem hj]
    exact congrArg some (List.getD_eq_getElem _ 0 hj).symm
  have h1 : (transformCols (fitScaler sqrtFn P) C Q)[i]? =
      some ((Q.getD i ([] : List ℚ)).mapIdx
        (fun j x => if j ∈ C then (x - colMean P j) / sqrtFn (colVar P j) else x)) := by
    rw [transformCols, List.getElem?_map, hQi]
    rfl
  rw [entry, List.getD_eq_getElem?_getD, List.getD_eq_getElem?_getD, h1,
    Option.getD_some, List.getElem?_mapIdx, hrow]
  rfl

theorem transformCols_frame_witness :
    (transformCols (fitScaler id [[1, 10], [3, 20]]) [0] [[5, 7]]).length =
      ([[5, 7]] : List Row).length ∧
    entry (transformCols (fitScaler id [[1, 10], [3, 20]]) [0] [[5, 7]]) 0 1 =
      (if 1 ∈ [0] then (entry [[5, 7]] 0 1 - colMean [[1, 10], [3, 20]] 1) /
          id (colVar [[1, 10], [3, 20]] 1)
       else entry [[5, 7]] 0 1) :=
  transformCols_frame id [[1, 10], [3, 20]] [[5, 7]] [0] 0 1 (by decide) (by decide)

/-! ## The fold-level and refit-level scaling pipeline

Inner loop (logistic-regression script lines 96–109): the scaler is fit on
`X_ktrain[:, C]` where `X_ktrain = X_train[ktrain_index]`, and the same
fitted scaler is then applied to `X_kval[:, C]`.  Final refit (lines
119–128): the scaler is fit on `X_train[:, C]` and applied to the test
holdout. -/

/-- The scaler fit inside one inner fold: fit on the fold's training rows
of `X_train` only. -/
def foldScaler (sqrtFn : ℚ → ℚ) (X : List Row) (ktrain : List ℕ) : ScalingTransform :=
  fitScaler sqrtFn (select ktrain X)

/-- The scaled validation rows of one inner fold: the fold's validation
rows transformed with the scaler fit on the fold's training rows. -/
def foldValScaled (sqrtFn : ℚ → ℚ) (X : List Row) (ktrain kval : List ℕ)
    (C : List ℕ) : List Row :=
  transformCols (foldScaler sqrtFn X ktrain) C (select kval X)

/-- The final-refit scaling of the test holdout (lines 119–128 of the
logistic-regression script): fit on the full training subsample, apply to
the test rows. -/
def refitTestScaled (sqrtFn : ℚ → ℚ) (Xtrain Xtest : List Row) (C : List ℕ) : List Row :=
  transformCols (fitScaler sqrtFn Xtrain) C Xtest

theorem select_congr (ix : List ℕ) (X X' : List Row)
    (h : ∀ i ∈ ix, X[i]? = X'[i]?) : select ix X = select ix X' :=
  List.filterMap_congr h

/-- C2: the ScalingTransform used to score a fold's validation rows (and,
at refit time, the test holdout) is a function of the corresponding
training rows alone: if two data matrices agree on the training-row indices
— however much they differ on the validation/test rows — the fitted
transform is identical, and the scaled validation rows are exactly the
validation rows transformed with that train-only transform.  No mean or
scale entering the scoring of a disjoint partition is computed from that
partition's rows. -/
theorem foldScaler_trainOnly (sqrtFn : ℚ → ℚ) (X X' : List Row)
    (ktrain kval : List ℕ) (C : List ℕ)
    (h : ∀ i ∈ ktrain, X[i]? = X'[i]?) :
    foldScaler sqrtFn X ktrain = foldScaler sqrtFn X' ktrain ∧
    foldValScaled sqrtFn X ktrain kval C =
      transformCols (foldScaler sqrtFn X' ktrain) C (select kval X) ∧
    ∀ Xtest : List Row,
      refitTestScaled sqrtFn (select ktrain X) Xtest C =
        transformCols (fitScaler sqrtFn (select ktrain X')) C Xtest := by
  have hsel : select ktrain X = select ktrain X' := select_congr ktrain X X' h
  refine ⟨?_, ?_, ?_⟩
  · rw [foldScaler, foldScaler, hsel]
  · rw [foldValScaled, foldScaler, foldScaler, hsel]
  · intro Xtest
    rw [refitTestScaled, hsel]

theorem foldScaler_trainOnly_witness :
    foldScaler id [[1], [2], [30]] [0, 1] = foldScaler id [[1], [2], [999]] [0, 1] ∧
    foldValScaled id [[1], [2], [30]] [0, 1] [2] [0] =
      transformCols (foldScaler id [[1], [2], [999]] [0, 1]) [0]
        (select [2] [[1], [2], [30]]) ∧
    ∀ Xtest : List Row,
      refitTestScaled id (select [0, 1] [[1], [2], [30]]) Xtest [0] =
        transformCols (fitScaler id (select [0, 1] [[1], [2], [999]])) [0] Xtest :=
  foldScaler_trainOnly id [[1], [2], [30]] [[1], [2], [999]] [0, 1] [2] [0] (by decide)

/-! ## Result accumulation

One output row per (repetition, fraction, metric).  The logistic-regression
script extends `results` with the cross-entropy record and then the F1
record for each (repetition, fraction) pair, inside the fraction loop,
inside the repetition loop; records are only ever appended. -/

/-- One row of the ResultTable. -/
structure EvalRecord where
  rep : ℕ
  fraction : ℚ
  method : String
  metric : String
  value : ℚ
deriving DecidableEq

/-- The two records appended for one (repetition, fraction) pair:
cross-entropy first, then F1. -/
def recordsFor (rep : ℕ) (f : ℚ) (ce f1v : ℚ) : List EvalRecord :=
  [⟨rep, f, "logistic_regression", "cross_entropy", ce⟩,
   ⟨rep, f, "logistic_regression", "f1", f1v⟩]

/-- The (repetition, fraction) pairs in loop-nesting order: repetitions
outermost, the swept fractions within each repetition. -/
def iterSeq (k n : ℕ) : List (ℕ × ℚ) :=
  (List.range k).flatMap (fun rep => (fractions n).map (fun f => (rep, f)))

/-- The `results` accumulator after processing the given iterations:
each iteration appends its records at the end (`results.extend`). -/
def resultsAfter (ceOf f1Of : ℕ → ℚ → ℚ) (steps : List (ℕ × ℚ)) : List EvalRecord :=
  steps.foldl (fun acc p => acc ++ recordsFor p.1 p.2 (ceOf p.1 p.2) (f1Of p.1 p.2)) []

/-- The final ResultTable of a run, as a function of the per-iteration
metric values. -/
def resultTable (k n : ℕ) (ceOf f1Of : ℕ → ℚ → ℚ) : List EvalRecord :=
  resultsAfter ceOf f1Of (iterSeq k n)

/-- Rank of a metric within one (repetition, fraction) pair. -/
def metricRank (m : String) : ℕ :=
  if m = "cross_entropy" then 0 else 1

/-- Strict record order: repetition-major, then by fraction, then by metric
(cross-entropy before F1). -/
def recOrder (a b : EvalRecord) : Prop :=
  a.rep < b.rep ∨ (a.rep = b.rep ∧ (a.fraction < b.fraction ∨
    (a.fraction = b.fraction ∧ metricRank a.metric < metricRank b.metric)))

theorem foldl_append_eq_flatten {σ τ : Type} (f : σ → List τ) :
    ∀ (steps : List σ) (acc : List τ),
      steps.foldl (fun a s => a ++ f s) acc = acc ++ (steps.map f).flatten := by
  intro steps
  induction steps with
  | nil => intro acc; simp
  | cons s ss ih =>
      intro acc
      rw [List.foldl_cons, ih, List.map_cons, List.flatten_cons, List.append_assoc]

theorem resultsAfter_eq (ceOf f1Of : ℕ → ℚ → ℚ) (steps : List (ℕ × ℚ)) :
    resultsAfter ceOf f1Of steps =
      steps.flatMap (fun p => recordsFor p.1 p.2 (ceOf p.1 p.2) (f1Of p.1 p.2)) := by
  rw [resultsAfter, foldl_append_eq_flatten, List.nil_append, List.flatMap_def]

theorem mem_recordsFor {a : EvalRecord} {rep : ℕ} {f ce f1v : ℚ}
    (h : a ∈ recordsFor rep f ce f1v) : a.rep = rep ∧ a.fraction = f := by
  rw [recordsFor, List.mem_cons, List.mem_singleton] at h
  rcases h with rfl | rfl
  · exact ⟨rfl, rfl⟩
  · exact ⟨rfl, rfl⟩

theorem recordsFor_pairwise (rep : ℕ) (f ce f1v : ℚ) :
    List.Pairwise recOrder (recordsFor rep f ce f1v) := by
  refine List.pairwise_cons.mpr ⟨?_, List.pairwise_singleton _ _⟩
  intro b hb
  rw [List.mem_singleton] at hb
  subst hb
  exact Or.inr ⟨rfl, Or.inr ⟨rfl,
    show metricRank ("cross_entropy") < metricRank ("f1") by decide⟩⟩

theorem iterSeq_pairwise (k n : ℕ) :
    List.Pairwise (fun p q : ℕ × ℚ => p.1 < q.1 ∨ (p.1 = q.1 ∧ p.2 < q.2))
      (iterSeq k n) := by
  rw [iterSeq, List.pairwise_flatMap]
  constructor
  · intro rep _
    rw [List.pairwise_map]
    exact (fractions_pairwise n).imp (fun h => Or.inr ⟨rfl, h⟩)
  · refine (List.pairwise_lt_range k).imp ?_
    intro r₁ r₂ h x hx y hy
    rcases List.mem_map.mp hx with ⟨f₁, _, rfl⟩
    rcases List.mem_map.mp hy with ⟨f₂, _, rfl⟩
    exact Or.inl h

/-- C7: the ResultTable's records are strictly ordered repetition-major,
then by increasing subsample fraction, then by metric (cross-entropy before
F1); and the table is built append-only: the accumulator after any number
of iterations is an initial segment of the final table, never rewritten. -/
theorem resultTable_ordered_append_only (k n : ℕ) (ceOf f1Of : ℕ → ℚ → ℚ) :
    List.Pairwise recOrder (resultTable k n ceOf f1Of) ∧
    ∀ m : ℕ, ∃ t : List EvalRecord,
      resultsAfter ceOf f1Of ((iterSeq k n).take m) ++ t =
        resultTable k n ceOf f1Of := by
  constructor
  · rw [resultTable, resultsAfter_eq, List.pairwise_flatMap]
    constructor
    · intro p _
      exact recordsFor_pairwise p.1 p.2 _ _
    · refine (iterSeq_pairwise k n).imp ?_
      intro p q hpq a ha b hb
      rcases mem_recordsFor ha with ⟨har, haf⟩
      rcases mem_recordsFor hb with ⟨hbr, hbf⟩
      rcases hpq with h | ⟨h1, h2⟩
      · exact Or.inl (by rw [har, hbr]; exact h)
      · exact Or.inr ⟨by rw [har, hbr, h1], Or.inl (by rw [haf, hbf]; exact h2)⟩
  · intro m
    refine ⟨((iterSeq k n).drop m).flatMap
      (fun p => recordsFor p.1 p.2 (ceOf p.1 p.2) (f1Of p.1 p.2)), ?_⟩
    rw [resultTable, resultsAfter_eq, resultsAfter_eq, ← List.flatMap_append,
      List.take_append_drop]

/-! ## Serialization trace

The scripts append records in memory during the loops and call `df.to_csv`
exactly once, after the repetition loop has finished.  A crash truncates
the event trace at an arbitrary point. -/

/-- Observable events of a run: appending one record to the in-memory
accumulator, or writing the whole ResultTable to disk (`df.to_csv`). -/
inductive RunEvent where
  | record (r : EvalRecord) : RunEvent
  | save (table : List EvalRecord) : RunEvent
deriving DecidableEq

/-- The event trace of a complete run: all record-append events in loop
order, then the single save of the full table. -/
def runTrace (k n : ℕ) (ceOf f1Of : ℕ → ℚ → ℚ) : List RunEvent :=
  (resultTable k n ceOf f1Of).map RunEvent.record ++
    [RunEvent.save (resultTable k n ceOf f1Of)]

/-- The tables persisted to disk by a (possibly truncated) trace. -/
def persisted (tr : List RunEvent) : List (List EvalRecord) :=
  tr.filterMap (fun e =>
    match e with
    | RunEvent.save t => some t
    | RunEvent.record _ => none)

theorem persisted_records (l : List EvalRecord) :
    persisted (l.map RunEvent.record) = [] := by
  rw [persisted, List.filterMap_map]
  exact List.filterMap_eq_nil_iff.mpr (fun a _ => rfl)

/-- C9: the ResultTable is serialized exactly once, by the trace's final
event, after all repetitions complete; a trace truncated anywhere before
the end (a crash before the save) persists no result rows at all. -/
theorem save_once_at_end (k n : ℕ) (ceOf f1Of : ℕ → ℚ → ℚ) :
    persisted (runTrace k n ceOf f1Of) = [resultTable k n ceOf f1Of] ∧
    (runTrace k n ceOf f1Of).getLast? =
      some (RunEvent.save (resultTable k n ceOf f1Of)) ∧
    ∀ m : ℕ, m < (runTrace k n ceOf f1Of).length →
      persisted ((runTrace k n ceOf f1Of).take m) = [] := by
  refine ⟨?_, ?_, ?_⟩
  · rw [runTrace, persisted, List.filterMap_append, ← persisted, persisted_records,
      List.nil_append]
    rfl
  · rw [runTrace, List.getLast?_append]
    rfl
  · intro m hm
    rw [runTrace, List.length_append, List.length_map, List.length_cons,
      List.length_nil] at hm
    rw [runTrace, List.take_append_of_le_length
      (by rw [List.length_map]; omega), ← List.map_take, persisted_records]

theorem save_once_at_end_witness :
    persisted ((runTrace 1 1 (fun _ _ => 0) (fun _ _ => 0)).take 2) = [] :=
  (save_once_at_end 1 1 (fun _ _ => 0) (fun _ _ => 0)).2.2 2 (by decide)

/-! ## Determinism of the random-draw sequence

The only randomness flows through the single `rng = np.random.default_rng(
random_seed)`: one test-holdout draw per repetition followed by one
training-subsample draw per fraction, in loop-nesting order.  (The inner
`KFold` and the classifiers are seeded with the fixed `random_seed`
directly, so they are deterministic functions of their inputs.)  The run is
modelled as consuming a stream of drawn index lists at fixed positions. -/

/-- Position of the test-holdout draw of repetition `rep` in the rng's
draw sequence. -/
def testDrawPos (n rep : ℕ) : ℕ := rep * (1 + n)

/-- Position of the training-subsample draw of fraction index `i` within
repetition `rep`. -/
def trainDrawPos (n rep i : ℕ) : ℕ := rep * (1 + n) + 1 + i

/-- Total number of rng draws a run consumes. -/
def drawCount (k n : ℕ) : ℕ := k * (1 + n)

/-- The ResultTable as a function of the rng draw stream: repetition `rep`
consumes its test draw, then each fraction consumes its subsample draw; all
downstream computation is a pure function (`evalCE`, `evalF1`) of the drawn
index lists. -/
def runFromStream (k n : ℕ) (stream : ℕ → List ℕ)
    (evalCE evalF1 : ℕ → ℕ → List ℕ → List ℕ → ℚ) : List EvalRecord :=
  (List.range k).flatMap (fun rep =>
    (List.range n).flatMap (fun i =>
      recordsFor rep (((i : ℚ) + 1) / (n : ℚ))
        (evalCE rep i (stream (testDrawPos n rep)) (stream (trainDrawPos n rep i)))
        (evalF1 rep i (stream (testDrawPos n rep)) (stream (trainDrawPos n rep i)))))

theorem trainDrawPos_lt (k n rep i : ℕ) (hrep : rep < k) (hi : i < n) :
    trainDrawPos n rep i < drawCount k n := by
  have h1 : rep + 1 ≤ k := hrep
  have h2 : (rep + 1) * (1 + n) ≤ k * (1 + n) := Nat.mul_le_mul_right _ h1
  have h3 : (rep + 1) * (1 + n) = rep * (1 + n) + (1 + n) := by ring
  rw [trainDrawPos, drawCount]
  omega

theorem testDrawPos_lt (k n rep : ℕ) (hrep : rep < k) :
    testDrawPos n rep < drawCount k n := by
  have h2 : (rep + 1) * (1 + n) ≤ k * (1 + n) :=
    Nat.mul_le_mul_right _ (show rep + 1 ≤ k from hrep)
  have h3 : (rep + 1) * (1 + n) = rep * (1 + n) + (1 + n) := by ring
  rw [testDrawPos, drawCount]
  omega

/-- C6: the ResultTable depends on the random generator only through the
first `drawCount k n` draws, which occur at fixed positions determined by
the loop nesting; two runs whose draw streams agree there — as two runs
seeded identically do, the generator being deterministic — produce
identical ResultTables: every split and every recorded metric value
coincides. -/
theorem runFromStream_deterministic (k n : ℕ) (s₁ s₂ : ℕ → List ℕ)
    (evalCE evalF1 : ℕ → ℕ → List ℕ → List ℕ → ℚ)
    (h : ∀ j, j < drawCount k n → s₁ j = s₂ j) :
    runFromStream k n s₁ evalCE evalF1 = runFromStream k n s₂ evalCE evalF1 := by
  rw [runFromStream, runFromStream]
  refine List.flatMap_congr ?_
  intro rep hrep
  refine List.flatMap_congr ?_
  intro i hi
  rw [List.mem_range] at hrep hi
  rw [h (testDrawPos n rep) (testDrawPos_lt k n rep hrep),
    h (trainDrawPos n rep i) (trainDrawPos_lt k n rep i hrep hi)]

/-- Two concrete draw streams agreeing on the first six positions. -/
def wStream1 : ℕ → List ℕ := fun j => [j]

/-- Second stream for the determinism witness: differs from `wStream1`
only from position six onwards. -/
def wStream2 : ℕ → List ℕ := fun j => if j < 6 then [j] else [j + 1]

/-- A concrete cross-entropy evaluator for the determinism witness. -/
def wEvalCE : ℕ → ℕ → List ℕ → List ℕ → ℚ :=
  fun _ _ t s => (t.length : ℚ) + s.length

/-- A concrete F1 evaluator for the determinism witness. -/
def wEvalF1 : ℕ → ℕ → List ℕ → List ℕ → ℚ :=
  fun _ _ t s => (t.length : ℚ) * s.length

theorem runFromStream_deterministic_witness :
    runFromStream 2 2 wStream1 wEvalCE wEvalF1 =
      runFromStream 2 2 wStream2 wEvalCE wEvalF1 :=
  runFromStream_deterministic 2 2 wStream1 wStream2 wEvalCE wEvalF1
    (fun j hj => by
      show [j] = if j < 6 then [j] else [j + 1]
      rw [if_pos (show j < 6 from hj)])

/-! ## Aliasing model of the inner-loop in-place scaling

NumPy integer-array indexing (`X_train[ktrain_index]`) allocates a fresh
array; the subsequent `X_ktrain[:, C] = …` / `X_kval[:, C] = …` assignments
mutate those fresh arrays in place.  A small heap of arrays makes the
write targets explicit: each fold iteration allocates two fresh arrays from
`X_train` and writes only to them. -/

/-- A heap of numpy arrays: contents by id, plus the next fresh id. -/
structure Heap where
  arrs : ℕ → List Row
  nextId : ℕ

/-- In-place assignment to an existing array. -/
def writeArr (h : Heap) (id : ℕ) (v : List Row) : Heap :=
  ⟨fun i => if i = id then v else h.arrs i, h.nextId⟩

/-- Allocate a fresh array holding `v`; returns its id. -/
def alloc (h : Heap) (v : List Row) : ℕ × Heap :=
  (h.nextId, ⟨fun i => if i = h.nextId then v else h.arrs i, h.nextId + 1⟩)

/-- NumPy integer-array indexing: copies the selected rows of the source
array into a fresh array (never an alias). -/
def fancyIndex (h : Heap) (src : ℕ) (ix : List ℕ) : ℕ × Heap :=
  alloc h (select ix (h.arrs src))

/-- One inner-fold iteration of the logistic-regression script, acting on
the heap: `X_ktrain = X_train[ktrain]`, `X_kval = X_train[kval]`, fit the
scaler on `X_ktrain`, then scale `X_ktrain[:, C]` and `X_kval[:, C]` in
place. -/
def foldStep (sqrtFn : ℚ → ℚ) (C : List ℕ) (trainId : ℕ)
    (fold : List ℕ × List ℕ) (h : Heap) : Heap :=
  let kt := fancyIndex h trainId fold.1
  let kv := fancyIndex kt.2 trainId fold.2
  let scaler := fitScaler sqrtFn (kv.2.arrs kt.1)
  let h3 := writeArr kv.2 kt.1 (transformCols scaler C (kv.2.arrs kt.1))
  writeArr h3 kv.1 (transformCols scaler C (h3.arrs kv.1))

/-- All fold (and configuration) iterations in sequence. -/
def runFolds (sqrtFn : ℚ → ℚ) (C : List ℕ) (trainId : ℕ)
    (folds : List (List ℕ × List ℕ)) (h : Heap) : Heap :=
  folds.foldl (fun acc f => foldStep sqrtFn C trainId f acc) h

theorem foldStep_frame (sqrtFn : ℚ → ℚ) (C : List ℕ) (trainId : ℕ)
    (fold : List ℕ × List ℕ) (h : Heap) :
    (∀ id, id < h.nextId → (foldStep sqrtFn C trainId fold h).arrs id = h.arrs id) ∧
    h.nextId ≤ (foldStep sqrtFn C trainId fold h).nextId := by
  constructor
  · intro id hid
    show (if id = h.nextId + 1 then _ else if id = h.nextId then _
      else if id = h.nextId + 1 then _ else if id = h.nextId then _ else h.arrs id) =
        h.arrs id
    rw [if_neg (by omega), if_neg (by omega), if_neg (by omega), if_neg (by omega)]
  · show h.nextId ≤ h.nextId + 1 + 1
    omega

theorem runFolds_frame (sqrtFn : ℚ → ℚ) (C : List ℕ) (trainId : ℕ) :
    ∀ (folds : List (List ℕ × List ℕ)) (h : Heap),
      (∀ id, id < h.nextId → (runFolds sqrtFn C trainId folds h).arrs id = h.arrs id) ∧
      h.nextId ≤ (runFolds sqrtFn C trainId folds h).nextId := by
  intro folds
  induction folds with
  | nil => intro h; exact ⟨fun id _ => rfl, Nat.le_refl _⟩
  | cons f fs ih =>
      intro h
      have hstep := foldStep_frame sqrtFn C trainId f h
      have hrec := ih (foldStep sqrtFn C trainId f h)
      constructor
      · intro id hid
        calc (runFolds sqrtFn C trainId (f :: fs) h).arrs id
            = (foldStep sqrtFn C trainId f h).arrs id :=
              hrec.1 id (Nat.lt_of_lt_of_le hid hstep.2)
          _ = h.arrs id := hstep.1 id hid
      · exact Nat.le_trans hstep.2 hrec.2

/-- C10: the in-place scaling inside the inner loop writes only to the
fresh arrays produced by integer-array indexing of `X_train` (copies, never
aliases): across any sequence of fold and configuration iterations, every
array already allocated before the loop — `X_train`, `X_dev`, `X`, `y` —
is left exactly as it was; in particular each iteration reads `X_train`
unscaled, as it was before the loop started. -/
theorem innerLoop_preserves_arrays (sqrtFn : ℚ → ℚ) (C : List ℕ) (trainId : ℕ)
    (folds : List (List ℕ × List ℕ)) (h : Heap) (hvalid : trainId < h.nextId) :
    (∀ id, id < h.nextId → (runFolds sqrtFn C trainId folds h).arrs id = h.arrs id) ∧
    (runFolds sqrtFn C trainId folds h).arrs trainId = h.arrs trainId ∧
    (∀ fpre f fsuf, folds = fpre ++ f :: fsuf →
      (runFolds sqrtFn C trainId fpre h).arrs trainId = h.arrs trainId) := by
  refine ⟨(runFolds_frame sqrtFn C trainId folds h).1, ?_, ?_⟩
  · exact (runFolds_frame sqrtFn C trainId folds h).1 trainId hvalid
  · intro fpre f fsuf _
    exact (runFolds_frame sqrtFn C trainId fpre h).1 trainId hvalid

/-- A concrete square-root stand-in for the aliasing witness. -/
def wSqrt : ℚ → ℚ := fun x => x

theorem innerLoop_preserves_arrays_witness :
    (∀ a, a < (⟨fun _ => [[3], [4]], 1⟩ : Heap).nextId →
      (runFolds wSqrt [0] 0 [([0], [1])] ⟨fun _ => [[3], [4]], 1⟩).arrs a =
        (⟨fun _ => [[3], [4]], 1⟩ : Heap).arrs a) ∧
    (runFolds wSqrt [0] 0 [([0], [1])] ⟨fun _ => [[3], [4]], 1⟩).arrs 0 =
      (⟨fun _ => [[3], [4]], 1⟩ : Heap).arrs 0 ∧
    (∀ fpre f fsuf, [([0], [1])] = fpre ++ f :: fsuf →
      (runFolds wSqrt [0] 0 fpre ⟨fun _ => [[3], [4]], 1⟩).arrs 0 =
        (⟨fun _ => [[3], [4]], 1⟩ : Heap).arrs 0) :=
  innerLoop_preserves_arrays wSqrt [0] 0 [([0], [1])] ⟨fun _ => [[3], [4]], 1⟩
    (by decide)

end Labrador
